import Mathlib

set_option maxRecDepth 8000

/-!
Verification of the measurement core of the `weii` balance-board utility
(`weii/cli.py`, with the same core duplicated in `weii/gui.py`).

The embedding follows the source:

* `decodeStep`/`get_raw_measurement` embed the event-decoding loop
  `get_raw_measurement` (cli.py lines 315-350): four optional per-axis slots
  (`data = [None] * 4`), axis events store `event.value / 100` into their slot,
  `BTN_A` calls `sys.exit` (modelled as an `abort` outcome), `SYN_DROPPED` and
  `SYN_REPORT` with value 3 are ignored, `SYN_REPORT` with value 0 either
  returns `sum(data)` (all slots set) or clears the slots and keeps reading,
  and any other event is logged and ignored.
* `runLoop`/`read_data` embed the collection loop `read_data`
  (cli.py lines 352-384), including the `while measuring` cancellation check
  (the global flag is modelled as a function from check index to `Bool`), the
  threshold gate, the sample cap, and the single `device.close()` call on the
  normal return path (the returned `Nat` counts executed closes; the
  `sys.exit` raised on a button press propagates out of `read_data` without
  reaching `device.close()`).
* `pymedian`/`finalWeight`/`measure_weight` embed the aggregation and session
  entry `measure_weight` (cli.py lines 386-433): the MAC-address validation of
  `disconnect_address` (`sys.exit` on mismatch, before any measurement), then
  `statistics.median(weight_data) + adjust` (a raised `StatisticsError` on an
  empty list is modelled as `none`).

Python floats are modelled as exact rationals (`ℚ`); raw event values are
integers (`ℤ`).
-/

namespace Weii

/-- The four load sensors of the board, in the order of the Python `data`
list: `data[0]` top left (`ABS_HAT1X`), `data[1]` top right (`ABS_HAT0X`),
`data[2]` bottom left (`ABS_HAT0Y`), `data[3]` bottom right (`ABS_HAT1Y`). -/
inductive Axis
  | topLeft
  | topRight
  | bottomLeft
  | bottomRight
  deriving DecidableEq

/-- One event delivered by `device.read_one()`, as discriminated by the
`event.code` tests in `get_raw_measurement`.  `other` stands for any event
that reaches the final `else` branch (logged and ignored). -/
inductive BoardEvent
  | axis (which : Axis) (value : ℤ)
  | buttonPress
  | synDropped
  | synReport (value : ℤ)
  | other
  deriving DecidableEq

/-- The four optional slots of one measurement group: the Python local
`data = [None] * 4` in `get_raw_measurement`. -/
structure PendingSample where
  tl : Option ℚ
  tr : Option ℚ
  bl : Option ℚ
  br : Option ℚ
  deriving DecidableEq

/-- `[None] * 4`: all slots unset. -/
def PendingSample.empty : PendingSample := ⟨none, none, none, none⟩

/-- `data[i] = event.value / 100` for the slot of axis `w`. -/
def PendingSample.set (st : PendingSample) (w : Axis) (v : ℚ) : PendingSample :=
  match w with
  | .topLeft => { st with tl := some v }
  | .topRight => { st with tr := some v }
  | .bottomLeft => { st with bl := some v }
  | .bottomRight => { st with br := some v }

/-- Read the slot of axis `w`. -/
def PendingSample.slot (st : PendingSample) : Axis → Option ℚ
  | .topLeft => st.tl
  | .topRight => st.tr
  | .bottomLeft => st.bl
  | .bottomRight => st.br

/-- `not (None in data)`: every slot is set. -/
def PendingSample.isComplete (st : PendingSample) : Bool :=
  st.tl.isSome && st.tr.isSome && st.bl.isSome && st.br.isSome

/-- `sum(data)`; only used on complete groups, where every `getD 0`
returns the stored value. -/
def PendingSample.total (st : PendingSample) : ℚ :=
  st.tl.getD 0 + st.tr.getD 0 + st.bl.getD 0 + st.br.getD 0

/-- Result of feeding one event to the decoder, following the branches of
`get_raw_measurement`: keep reading (`pending`), return a finished sample
(`completed`), drop an incomplete group and keep reading (`discarded`), or
terminate via `sys.exit` on the board button (`abort`). -/
inductive DecodeResult
  | pending
  | completed (v : ℚ)
  | discarded
  | abort
  deriving DecidableEq

/-- One iteration of the `while True` body of `get_raw_measurement`: the
event dispatch on `event.code`.  A `SYN_REPORT` with value 0 on a complete
group returns `sum(data)`; the Python local `data` dies with the returning
call and the next call re-initialises it to `[None] * 4`, so the state paired
with `completed` is the all-unset one.  A `SYN_REPORT` with any value other
than 0 (the value-3 branch and the logged fallback branch alike) leaves the
slots unchanged and keeps reading. -/
def decodeStep (st : PendingSample) (e : BoardEvent) : PendingSample × DecodeResult :=
  match e with
  | .axis w v => (st.set w ((v : ℚ) / 100), .pending)
  | .buttonPress => (st, .abort)
  | .synDropped => (st, .pending)
  | .synReport f =>
      if f = 0 then
        if st.isComplete then (PendingSample.empty, .completed st.total)
        else (PendingSample.empty, .discarded)
      else (st, .pending)
  | .other => (st, .pending)

/-- Outcome of one `get_raw_measurement` call on a finite event stream:
either a returned sample together with the unconsumed events, the `sys.exit`
raised on a button press (also with the unconsumed events), or the stream ran
out while the call was still blocked waiting for events. -/
inductive RawOutcome
  | completed (v : ℚ) (rest : List BoardEvent)
  | abort (rest : List BoardEvent)
  | starved
  deriving DecidableEq

/-- The `while True` loop of `get_raw_measurement`, carrying the `data`
slots.  `event is None: continue` is the blocking read; a finite stream that
runs out models a device that never produces another event. -/
def getRawMeasurementAux : PendingSample → List BoardEvent → RawOutcome
  | _, [] => .starved
  | st, e :: rest =>
    match decodeStep st e with
    | (_, .abort) => .abort rest
    | (_, .completed v) => .completed v rest
    | (st', .pending) => getRawMeasurementAux st' rest
    | (st', .discarded) => getRawMeasurementAux st' rest

/-- `get_raw_measurement(device)`: the loop started with `data = [None] * 4`. -/
def get_raw_measurement (evs : List BoardEvent) : RawOutcome :=
  getRawMeasurementAux PendingSample.empty evs

/-- Outcome of `read_data`: a normal return carrying the collected window
(`ok`), the `sys.exit` from a button press propagating out of the function
(`exit`), or the loop still blocked reading a device that emits nothing more
(`blocked`). -/
inductive ReadResult
  | ok (window : List ℚ)
  | exit
  | blocked
  deriving DecidableEq

/-- The `while measuring` loop of `read_data`, processed one event at a time.
Arguments: the `measuring` flag as seen at its `k`-th check, the `samples`
cap and `threshold` parameters, the iteration index `k` (the flag has already
been seen `true` for iteration `k`), the accumulated `data` window, the slot
state of the in-progress `get_raw_measurement` call, and the remaining
events.

The second component of the result counts executed `device.close()` calls:
`read_data` has a single `device.close()` after the loop, reached exactly on
normal returns; the `sys.exit` raised inside `get_raw_measurement` on a
button press propagates past it (there is no `finally`), so no close runs on
that path.

The loop body after a measurement returns mirrors the source: a measurement
below `threshold` with a non-empty window breaks (user stepped off); below
`threshold` with an empty window it is ignored; otherwise it is appended and
the loop breaks once `len(data) >= samples`.  `continue` and the fall-through
both re-test `measuring` at the loop head (index `k+1`); the next
`get_raw_measurement` call starts from fresh `[None] * 4` slots. -/
def runLoop (m : ℕ → Bool) (samples : ℕ) (threshold : ℚ) :
    ℕ → List ℚ → PendingSample → List BoardEvent → ReadResult × ℕ
  | _, _, _, [] => (.blocked, 0)
  | k, window, st, e :: rest =>
    match decodeStep st e with
    | (_, .abort) => (.exit, 0)
    | (_, .completed v) =>
      if window.length ≠ 0 ∧ v < threshold then (.ok window, 1)
      else if window.length = 0 ∧ v < threshold then
        (if m (k + 1) then runLoop m samples threshold (k + 1) window PendingSample.empty rest
         else (.ok window, 1))
      else
        let w := window ++ [v]
        if samples ≤ w.length then (.ok w, 1)
        else if m (k + 1) then runLoop m samples threshold (k + 1) w PendingSample.empty rest
        else (.ok w, 1)
    | (st', .pending) => runLoop m samples threshold k window st' rest
    | (st', .discarded) => runLoop m samples threshold k window st' rest

/-- The loop body of `read_data` from the point where `get_raw_measurement`
has returned `v` with `rest` of the stream unread: textually the
`completed` branch of `runLoop`, split out so that lemmas can speak about
"the next decoded sample". -/
def handleSample (m : ℕ → Bool) (samples : ℕ) (threshold : ℚ) (k : ℕ)
    (window : List ℚ) (v : ℚ) (rest : List BoardEvent) : ReadResult × ℕ :=
  if window.length ≠ 0 ∧ v < threshold then (.ok window, 1)
  else if window.length = 0 ∧ v < threshold then
    (if m (k + 1) then runLoop m samples threshold (k + 1) window PendingSample.empty rest
     else (.ok window, 1))
  else
    let w := window ++ [v]
    if samples ≤ w.length then (.ok w, 1)
    else if m (k + 1) then runLoop m samples threshold (k + 1) w PendingSample.empty rest
    else (.ok w, 1)

/-- `read_data(device, samples, threshold)`: the `measuring` flag is tested
once before the first measurement; if it is already `false` the loop body
never runs and the empty window is returned (after the close). -/
def read_data (m : ℕ → Bool) (samples : ℕ) (threshold : ℚ)
    (evs : List BoardEvent) : ReadResult × ℕ :=
  if m 0 then runLoop m samples threshold 0 [] PendingSample.empty evs
  else (.ok [], 1)

/-- A `measuring` flag that is never cleared (no cancellation request). -/
def alwaysOn : ℕ → Bool := fun _ => true

/-- `statistics.median(data)` as called by `measure_weight`: sort ascending,
take the middle element (odd length) or the mean of the two middle elements
(even length); the `StatisticsError` raised on an empty list is `none`. -/
def pymedian (data : List ℚ) : Option ℚ :=
  let s := List.insertionSort (fun a b => a ≤ b) data
  let n := s.length
  if n % 2 = 1 then s.get? (n / 2)
  else
    match s.get? (n / 2 - 1), s.get? (n / 2) with
    | some a, some b => some ((a + b) / 2)
    | _, _ => none

/-- Modelled from the spec (section 4.3 `Aggregator.reduce`): the statistical
median of the window — for an odd count the middle value of the sorted
sequence, for an even count the arithmetic mean of the two middle values —
with `InsufficientData` (`none`) on an empty window.  Stated separately from
`pymedian` so the source aggregation can be compared against it. -/
def specMedian (w : List ℚ) : Option ℚ :=
  let s := List.insertionSort (fun a b => a ≤ b) w
  let n := s.length
  if n = 0 then none
  else if n % 2 = 1 then some (s.getD (n / 2) 0)
  else some ((s.getD (n / 2 - 1) 0 + s.getD (n / 2) 0) / 2)

/-- `final_weight = statistics.median(weight_data); final_weight += adjust`
(cli.py lines 415-416); `none` when the median raised on an empty window. -/
def finalWeight (weight_data : List ℚ) (adjust : ℚ) : Option ℚ :=
  (pymedian weight_data).map (fun x => x + adjust)

/-- One hex digit of the address pattern, case-insensitively: `[0-9a-f]`
under `re.IGNORECASE`. -/
def isHexDigitCI (c : Char) : Bool :=
  (('0' ≤ c && c ≤ '9') || ('a' ≤ c && c ≤ 'f') || ('A' ≤ c && c ≤ 'F'))

/-- `n + 1` leading groups of the pattern `([0-9a-f]{2}[:]){n}([0-9a-f]{2})`:
`n` pairs of hex digits each followed by a colon, then a final bare pair,
anchored on both ends. -/
def macGroups : ℕ → List Char → Bool
  | 0, [a, b] => isHexDigitCI a && isHexDigitCI b
  | n + 1, a :: b :: ':' :: rest => isHexDigitCI a && isHexDigitCI b && macGroups n rest
  | _, _ => false

/-- `re.match(r"^([0-9a-f]{2}[:]){5}([0-9a-f]{2})$", addr, re.IGNORECASE)`
succeeds (cli.py lines 397-399). -/
def isValidMac (addr : String) : Bool :=
  macGroups 5 addr.data

/-- Outcome of one `measure_weight` call. `invalidAddress` is the `sys.exit`
on a malformed `disconnect_address`, raised before any device access;
`exit` is the button-press `sys.exit` propagating out of `read_data`;
`blocked` is a read that never returns; `emptyWindow` is the
`StatisticsError` from `statistics.median([])`.  `done` carries the final
weight and whether the `bluetoothctl disconnect` subprocess was run
(it runs whenever `disconnect_address` is non-empty). -/
inductive MeasureOutcome
  | invalidAddress
  | exit
  | blocked
  | emptyWindow
  | done (weight : ℚ) (disconnectRan : Bool)
  deriving DecidableEq

/-- `measure_weight(adjust, minlimit, disconnect_address, ...)` (cli.py lines
386-433), with the board already found (the device-wait loop only blocks
until a handle exists) and the `command` hook omitted (it consumes the
result and feeds nothing back).  The address check runs first; the sample
count passed to `read_data` is the hard-coded 200. -/
def measure_weight (adjust minlimit : ℚ) (disconnect_address : String)
    (m : ℕ → Bool) (evs : List BoardEvent) : MeasureOutcome :=
  if !disconnect_address.isEmpty && !isValidMac disconnect_address then .invalidAddress
  else
    match read_data m 200 minlimit evs with
    | (.exit, _) => .exit
    | (.blocked, _) => .blocked
    | (.ok w, _) =>
      match pymedian w with
      | none => .emptyWindow
      | some med => .done (med + adjust) (!disconnect_address.isEmpty)

/-- A group of four axis events of raw value 2100 each (21 kg per sensor)
closed by a report-complete marker: one accepted sample of 84 kg. -/
def group84 : List BoardEvent :=
  [.axis .topLeft 2100, .axis .topRight 2100, .axis .bottomLeft 2100,
   .axis .bottomRight 2100, .synReport 0]

/-- A group of four axis events of raw value 450 each: one sample of 18 kg,
below the default 20 kg threshold. -/
def group18 : List BoardEvent :=
  [.axis .topLeft 450, .axis .topRight 450, .axis .bottomLeft 450,
   .axis .bottomRight 450, .synReport 0]

/-- The event is an axis reading. -/
def BoardEvent.isAxis : BoardEvent → Bool
  | .axis _ _ => true
  | _ => false

/-- The stream of samples successive `get_raw_measurement` calls would
return from the given events, starting from slot state `st`: each completed
group contributes its total and the next call starts from fresh slots;
a button press or the end of the stream ends the sample stream. -/
def decodedSamplesAux : PendingSample → List BoardEvent → List ℚ
  | _, [] => []
  | st, e :: rest =>
    match decodeStep st e with
    | (_, .abort) => []
    | (_, .completed v) => v :: decodedSamplesAux PendingSample.empty rest
    | (st', .pending) => decodedSamplesAux st' rest
    | (st', .discarded) => decodedSamplesAux st' rest

/-- The samples decodable from an event stream, first call starting from
`[None] * 4`. -/
def decodedSamples (evs : List BoardEvent) : List ℚ :=
  decodedSamplesAux PendingSample.empty evs

/-- State update performed by one decoded event (first component of
`decodeStep`); on an axis event this is the slot store. -/
def applyAxis (st : PendingSample) (e : BoardEvent) : PendingSample :=
  (decodeStep st e).1

/-- The raw value an event writes into the slot of axis `w`, if any. -/
def axisVal (w : Axis) : BoardEvent → Option ℤ
  | .axis w' v => if w' = w then some v else none
  | _ => none

theorem slot_set (st : PendingSample) (w' w : Axis) (v : ℚ) :
    (st.set w' v).slot w = if w' = w then some v else st.slot w := by
  cases w' <;> cases w <;> simp [PendingSample.set, PendingSample.slot]

/-- Decoding a run of axis events just folds the slot stores over the state. -/
theorem getRawMeasurementAux_axis_run (l : List BoardEvent) :
    ∀ (st : PendingSample) (rest : List BoardEvent),
      (∀ e ∈ l, e.isAxis = true) →
      getRawMeasurementAux st (l ++ rest) =
        getRawMeasurementAux (l.foldl applyAxis st) rest := by
  induction l with
  | nil => intro st rest _; rfl
  | cons e t ih =>
    intro st rest h
    have he : e.isAxis = true := h e (List.mem_cons_self _ _)
    cases e with
    | axis w v =>
      simp only [List.cons_append, getRawMeasurementAux, decodeStep, List.foldl_cons]
      exact ih _ _ (fun x hx => h x (List.mem_cons_of_mem _ hx))
    | buttonPress => simp [BoardEvent.isAxis] at he
    | synDropped => simp [BoardEvent.isAxis] at he
    | synReport f => simp [BoardEvent.isAxis] at he
    | other => simp [BoardEvent.isAxis] at he

/-- A run of axis events that never writes axis `w` leaves its slot alone. -/
theorem slot_foldl_no_write (l : List BoardEvent) :
    ∀ (st : PendingSample) (w : Axis),
      (∀ e ∈ l, e.isAxis = true) → l.filterMap (axisVal w) = [] →
      (l.foldl applyAxis st).slot w = st.slot w := by
  induction l with
  | nil => intro st w _ _; rfl
  | cons e t ih =>
    intro st w h hf
    have he : e.isAxis = true := h e (List.mem_cons_self _ _)
    cases e with
    | axis w' v =>
      rw [List.filterMap_cons] at hf
      by_cases hww : w' = w
      · simp [axisVal, hww] at hf
      · simp only [axisVal, if_neg hww] at hf
        rw [List.foldl_cons]
        rw [ih _ w (fun x hx => h x (List.mem_cons_of_mem _ hx)) hf]
        simp [applyAxis, decodeStep, slot_set, hww]
    | buttonPress => simp [BoardEvent.isAxis] at he
    | synDropped => simp [BoardEvent.isAxis] at he
    | synReport f => simp [BoardEvent.isAxis] at he
    | other => simp [BoardEvent.isAxis] at he

/-- A run of axis events writing axis `w` exactly once, with raw value `vw`,
leaves its converted value `vw / 100` in the slot of `w`. -/
theorem slot_foldl_single_write (l : List BoardEvent) :
    ∀ (st : PendingSample) (w : Axis) (vw : ℤ),
      (∀ e ∈ l, e.isAxis = true) → l.filterMap (axisVal w) = [vw] →
      (l.foldl applyAxis st).slot w = some ((vw : ℚ) / 100) := by
  induction l with
  | nil => intro st w vw _ hf; simp at hf
  | cons e t ih =>
    intro st w vw h hf
    have he : e.isAxis = true := h e (List.mem_cons_self _ _)
    cases e with
    | axis w' v =>
      rw [List.filterMap_cons] at hf
      by_cases hww : w' = w
      · simp only [axisVal, if_pos hww] at hf
        obtain ⟨rfl, hnil⟩ : v = vw ∧ t.filterMap (axisVal w) = [] := by
          simpa using hf
        rw [List.foldl_cons]
        rw [slot_foldl_no_write t _ w (fun x hx => h x (List.mem_cons_of_mem _ hx)) hnil]
        simp [applyAxis, decodeStep, slot_set, hww]
      · simp only [axisVal, if_neg hww] at hf
        rw [List.foldl_cons]
        exact ih _ w vw (fun x hx => h x (List.mem_cons_of_mem _ hx)) hf
    | buttonPress => simp [BoardEvent.isAxis] at he
    | synDropped => simp [BoardEvent.isAxis] at he
    | synReport f => simp [BoardEvent.isAxis] at he
    | other => simp [BoardEvent.isAxis] at he

/-- C1: for every interleaving `l` of one raw value for each of the four
axes, followed by a report-complete marker (`SYN_REPORT` with value 0),
`get_raw_measurement` returns exactly one completed sample, equal to the sum
of the four raw values each divided by 100, with the rest of the stream
untouched; and the slot state carried past the marker is the all-unset one,
so the next measurement starts from scratch. -/
theorem decoder_completes_full_group (a b c d : ℤ) (l rest : List BoardEvent)
    (hl : l.Perm [.axis .topLeft a, .axis .topRight b, .axis .bottomLeft c,
      .axis .bottomRight d]) :
    getRawMeasurementAux PendingSample.empty (l ++ .synReport 0 :: rest) =
      .completed ((a : ℚ) / 100 + (b : ℚ) / 100 + (c : ℚ) / 100 + (d : ℚ) / 100) rest
    ∧ (decodeStep (l.foldl applyAxis PendingSample.empty) (.synReport 0)).1 =
      PendingSample.empty := by
  have hax : ∀ e ∈ l, e.isAxis = true := by
    intro e he
    have hm := hl.mem_iff.mp he
    simp only [List.mem_cons, List.mem_singleton, List.not_mem_nil, or_false] at hm
    rcases hm with rfl | rfl | rfl | rfl <;> rfl
  have hfilter : ∀ (w : Axis) (vw : ℤ),
      List.filterMap (axisVal w)
        [BoardEvent.axis .topLeft a, .axis .topRight b, .axis .bottomLeft c,
          .axis .bottomRight d] = [vw] →
      l.filterMap (axisVal w) = [vw] := by
    intro w vw hv
    have hp := hl.filterMap (axisVal w)
    rw [hv] at hp
    exact List.perm_singleton.mp hp
  have htl := slot_foldl_single_write l PendingSample.empty .topLeft a hax
    (hfilter _ _ (by simp [axisVal]))
  have htr := slot_foldl_single_write l PendingSample.empty .topRight b hax
    (hfilter _ _ (by simp [axisVal]))
  have hbl := slot_foldl_single_write l PendingSample.empty .bottomLeft c hax
    (hfilter _ _ (by simp [axisVal]))
  have hbr := slot_foldl_single_write l PendingSample.empty .bottomRight d hax
    (hfilter _ _ (by simp [axisVal]))
  simp only [PendingSample.slot] at htl htr hbl hbr
  have hcomp : (l.foldl applyAxis PendingSample.empty).isComplete = true := by
    simp [PendingSample.isComplete, htl, htr, hbl, hbr]
  have htot : (l.foldl applyAxis PendingSample.empty).total =
      (a : ℚ) / 100 + (b : ℚ) / 100 + (c : ℚ) / 100 + (d : ℚ) / 100 := by
    simp [PendingSample.total, htl, htr, hbl, hbr]
  refine ⟨?_, ?_⟩
  · rw [getRawMeasurementAux_axis_run l PendingSample.empty _ hax]
    simp [getRawMeasurementAux, decodeStep, hcomp, htot]
  · simp [decodeStep, hcomp]

/-- Witness for C1: the four axis readings of the end-to-end scenario
(raw 2100 each, delivered in a shuffled order) decode to a single sample of
21 + 21 + 21 + 21 = 84 kg. -/
theorem decoder_completes_full_group_witness :
    getRawMeasurementAux PendingSample.empty
      ([.axis .bottomRight 2100, .axis .topLeft 2100, .axis .bottomLeft 2100,
        .axis .topRight 2100] ++ .synReport 0 :: []) =
      .completed ((2100 : ℚ) / 100 + (2100 : ℚ) / 100 + (2100 : ℚ) / 100 +
        (2100 : ℚ) / 100) []
    ∧ (decodeStep (List.foldl applyAxis PendingSample.empty
        [.axis .bottomRight 2100, .axis .topLeft 2100, .axis .bottomLeft 2100,
          .axis .topRight 2100]) (.synReport 0)).1 = PendingSample.empty :=
  decoder_completes_full_group 2100 2100 2100 2100 _ [] (by with_unfolding_all decide)

/-- A returned measurement consumed at least the closing sync marker. -/
theorem completed_consumes (st : PendingSample) (evs : List BoardEvent) :
    ∀ (v : ℚ) (rest : List BoardEvent),
      getRawMeasurementAux st evs = .completed v rest → rest.length < evs.length := by
  induction evs generalizing st with
  | nil => intro v rest h; simp [getRawMeasurementAux] at h
  | cons e t ih =>
    intro v rest h
    simp only [getRawMeasurementAux] at h
    rcases hds : decodeStep st e with ⟨st', r⟩
    rw [hds] at h
    cases r with
    | abort => simp at h
    | completed u =>
      simp only at h
      obtain ⟨-, rfl⟩ : u = v ∧ t = rest := by
        constructor <;> [exact (RawOutcome.completed.injEq ..).mp h |>.1;
          exact (RawOutcome.completed.injEq ..).mp h |>.2]
      simp
    | pending => exact Nat.lt_trans (ih st' v rest h) (by simp)
    | discarded => exact Nat.lt_trans (ih st' v rest h) (by simp)

/-- If the in-progress `get_raw_measurement` call aborts on a button press,
the collection loop ends there with no close executed. -/
theorem runLoop_of_abort (m : ℕ → Bool) (samples : ℕ) (t : ℚ) :
    ∀ (evs : List BoardEvent) (st : PendingSample) (k : ℕ) (window : List ℚ)
      (rest : List BoardEvent),
      getRawMeasurementAux st evs = .abort rest →
      runLoop m samples t k window st evs = (.exit, 0) := by
  intro evs
  induction evs with
  | nil => intro st k window rest h; simp [getRawMeasurementAux] at h
  | cons e tl ih =>
    intro st k window rest h
    simp only [getRawMeasurementAux] at h
    rcases hds : decodeStep st e with ⟨st', r⟩
    rw [hds] at h
    cases r with
    | abort => simp [runLoop, hds]
    | completed u => simp at h
    | pending => simp only [runLoop, hds]; exact ih st' k window rest h
    | discarded => simp only [runLoop, hds]; exact ih st' k window rest h

/-- If the in-progress `get_raw_measurement` call never returns, the
collection loop stays blocked with no close executed. -/
theorem runLoop_of_starved (m : ℕ → Bool) (samples : ℕ) (t : ℚ) :
    ∀ (evs : List BoardEvent) (st : PendingSample) (k : ℕ) (window : List ℚ),
      getRawMeasurementAux st evs = .starved →
      runLoop m samples t k window st evs = (.blocked, 0) := by
  intro evs
  induction evs with
  | nil => intro st k window _; simp [runLoop]
  | cons e tl ih =>
    intro st k window h
    simp only [getRawMeasurementAux] at h
    rcases hds : decodeStep st e with ⟨st', r⟩
    rw [hds] at h
    cases r with
    | abort => simp at h
    | completed u => simp at h
    | pending => simp only [runLoop, hds]; exact ih st' k window h
    | discarded => simp only [runLoop, hds]; exact ih st' k window h

/-- If the in-progress `get_raw_measurement` call returns sample `v` with
`rest` unread, the collection loop continues with the loop body applied to
`v` (the threshold test, the append, and the cap test of `read_data`). -/
theorem runLoop_of_completed (m : ℕ → Bool) (samples : ℕ) (t : ℚ) :
    ∀ (evs : List BoardEvent) (st : PendingSample) (k : ℕ) (window : List ℚ)
      (v : ℚ) (rest : List BoardEvent),
      getRawMeasurementAux st evs = .completed v rest →
      runLoop m samples t k window st evs = handleSample m samples t k window v rest := by
  intro evs
  induction evs with
  | nil => intro st k window v rest h; simp [getRawMeasurementAux] at h
  | cons e tl ih =>
    intro st k window v rest h
    simp only [getRawMeasurementAux] at h
    rcases hds : decodeStep st e with ⟨st', r⟩
    rw [hds] at h
    cases r with
    | abort => simp at h
    | completed u =>
      obtain ⟨rfl, rfl⟩ : u = v ∧ tl = rest := by
        constructor <;> [exact (RawOutcome.completed.injEq ..).mp h |>.1;
          exact (RawOutcome.completed.injEq ..).mp h |>.2]
      simp only [runLoop, hds, handleSample]
    | pending => simp only [runLoop, hds]; exact ih st' k window v rest h
    | discarded => simp only [runLoop, hds]; exact ih st' k window v rest h

/-- C5: a report-complete marker arriving while at least one axis slot is
still unset makes the decoder discard the group — all four slots are cleared
— and decoding simply continues (the total function cannot crash): from the
marker on, the run is identical to a fresh run over the remaining events, so
no later completed sample can contain a stale slot value from the abandoned
group. -/
theorem decoder_discards_incomplete (st : PendingSample) (rest : List BoardEvent)
    (h : st.isComplete = false) :
    decodeStep st (.synReport 0) = (PendingSample.empty, .discarded)
    ∧ getRawMeasurementAux st (.synReport 0 :: rest) =
      getRawMeasurementAux PendingSample.empty rest := by
  constructor
  · simp [decodeStep, h]
  · simp [getRawMeasurementAux, decodeStep, h]

/-- Witness for C5: three slots set and one missing; the marker discards the
group and the following complete group decodes from a clean slate to 84 kg. -/
theorem decoder_discards_incomplete_witness :
    decodeStep ⟨some 21, some 21, some 21, none⟩ (.synReport 0) =
      (PendingSample.empty, .discarded)
    ∧ getRawMeasurementAux ⟨some 21, some 21, some 21, none⟩
        (.synReport 0 :: group84) =
      getRawMeasurementAux PendingSample.empty group84 :=
  decoder_discards_incomplete ⟨some 21, some 21, some 21, none⟩ group84
    (by with_unfolding_all decide)

/-- C6: a `BTN_A` button event makes the decoder abort regardless of the
current slot state (first two conjuncts); the collection loop then terminates
at once via the propagating `sys.exit`, discarding any buffered window and
any partial group (third conjunct); and the session can never produce a
final weight on that path (fourth conjunct). -/
theorem button_press_aborts :
    (∀ st : PendingSample, decodeStep st .buttonPress = (st, .abort))
    ∧ (∀ (st : PendingSample) (rest : List BoardEvent),
        getRawMeasurementAux st (.buttonPress :: rest) = .abort rest)
    ∧ (∀ (m : ℕ → Bool) (samples : ℕ) (t : ℚ) (evs : List BoardEvent)
        (st : PendingSample) (k : ℕ) (window : List ℚ) (rest : List BoardEvent),
        getRawMeasurementAux st evs = .abort rest →
        runLoop m samples t k window st evs = (.exit, 0))
    ∧ (∀ (adjust minlimit : ℚ) (addr : String) (m : ℕ → Bool)
        (evs : List BoardEvent) (w : ℚ) (b : Bool),
        (read_data m 200 minlimit evs).1 = .exit →
        measure_weight adjust minlimit addr m evs ≠ .done w b) := by
    refine ⟨fun st => rfl, fun st rest => rfl, ?_, ?_⟩
    · intro m samples t evs st k window rest h
      exact runLoop_of_abort m samples t evs st k window rest h
    · intro adjust minlimit addr m evs w b hexit
      unfold measure_weight
      split
      · simp
      · rcases hrd : read_data m 200 minlimit evs with ⟨res, c⟩
        rw [hrd] at hexit
        simp only at hexit
        subst hexit
        simp

/-- Witness for C6: with one sample buffered and a partial group in the
slots, a button press ends the loop immediately with nothing closed and no
result; the same stream can never yield a `done` outcome. -/
theorem button_press_aborts_witness :
    runLoop alwaysOn 200 20 0 [84] ⟨some 1, none, none, none⟩ [.buttonPress] =
      (.exit, 0)
    ∧ measure_weight 0 20 "" alwaysOn [.buttonPress] ≠ .done 84 false :=
  ⟨button_press_aborts.2.2.1 alwaysOn 200 20 [.buttonPress]
      ⟨some 1, none, none, none⟩ 0 [84] [] rfl,
    button_press_aborts.2.2.2 0 20 "" alwaysOn [.buttonPress] 84 false
      (by with_unfolding_all decide)⟩

/-- C3: at any reachable point of the collection loop where the window is
already non-empty, if the next `get_raw_measurement` call returns a sample
strictly below the threshold, the loop breaks at once: the run ends normally
(the device is closed, once), the triggering sample is not appended, and the
returned window — the input handed to the median aggregation — is exactly
the window as accumulated before that sample. -/
theorem step_off_ends_collection (m : ℕ → Bool) (samples : ℕ) (t : ℚ) (k : ℕ)
    (window : List ℚ) (st : PendingSample) (evs rest : List BoardEvent) (v : ℚ)
    (hw : window ≠ []) (hdec : getRawMeasurementAux st evs = .completed v rest)
    (hv : v < t) :
    runLoop m samples t k window st evs = (.ok window, 1) := by
  rw [runLoop_of_completed m samples t evs st k window v rest hdec]
  have hlen : window.length ≠ 0 := by
    exact Nat.pos_iff_ne_zero.mp (List.length_pos.mpr hw)
  simp [handleSample, hlen, hv]

/-- Witness for C3, the end-to-end scenario of the spec: 50 samples of 84 kg
already buffered, sample 51 decodes to 18 kg with threshold 20; the loop
returns exactly the 50 buffered samples, excluding sample 51. -/
theorem step_off_ends_collection_witness :
    runLoop alwaysOn 200 20 50 (List.replicate 50 (84 : ℚ)) PendingSample.empty
      group18 = (.ok (List.replicate 50 (84 : ℚ)), 1) :=
  step_off_ends_collection alwaysOn 200 20 50 (List.replicate 50 (84 : ℚ))
    PendingSample.empty group18 [] 18 (by with_unfolding_all decide)
    (by with_unfolding_all decide) (by with_unfolding_all decide)

/-- Iteration invariant: started below the cap, the loop never returns a
window longer than `samples` (the single append per iteration is followed
immediately by the `len(data) >= samples` break). -/
theorem runLoop_length_le (m : ℕ → Bool) (samples : ℕ) (t : ℚ) :
    ∀ (evs : List BoardEvent) (k : ℕ) (window : List ℚ) (st : PendingSample)
      (w' : List ℚ) (c : ℕ),
      window.length < samples →
      runLoop m samples t k window st evs = (.ok w', c) → w'.length ≤ samples := by
  intro evs
  induction evs with
  | nil => intro k window st w' c _ h; simp [runLoop] at h
  | cons e tl ih =>
    intro k window st w' c hlt h
    rcases hds : decodeStep st e with ⟨st', r⟩
    rw [runLoop, hds] at h
    cases r with
    | abort => simp at h
    | pending => exact ih k window st' w' c hlt h
    | discarded => exact ih k window st' w' c hlt h
    | completed v =>
      simp only at h
      split at h
      · obtain ⟨rfl, -⟩ : window = w' ∧ 1 = c := by
          simpa using h
        exact Nat.le_of_lt hlt
      · split at h
        · split at h
          · exact ih (k + 1) window PendingSample.empty w' c hlt h
          · obtain ⟨rfl, -⟩ : window = w' ∧ 1 = c := by
              simpa using h
            exact Nat.le_of_lt hlt
        · split at h
          · obtain ⟨rfl, -⟩ : window ++ [v] = w' ∧ 1 = c := by
              simpa using h
            simpa using hlt
          · rename_i hcap
            have hlt' : (window ++ [v]).length < samples := Nat.lt_of_not_le hcap
            split at h
            · exact ih (k + 1) (window ++ [v]) PendingSample.empty w' c hlt' h
            · obtain ⟨rfl, -⟩ : window ++ [v] = w' ∧ 1 = c := by
                simpa using h
              exact Nat.le_of_lt hlt'

/-- Iteration invariant: a sample is appended only when it is not below the
threshold, so every window entry stays at or above it. -/
theorem runLoop_mem_ge_threshold (m : ℕ → Bool) (samples : ℕ) (t : ℚ) :
    ∀ (evs : List BoardEvent) (k : ℕ) (window : List ℚ) (st : PendingSample)
      (w' : List ℚ) (c : ℕ),
      (∀ x ∈ window, t ≤ x) →
      runLoop m samples t k window st evs = (.ok w', c) → ∀ x ∈ w', t ≤ x := by
  intro evs
  induction evs with
  | nil => intro k window st w' c _ h; simp [runLoop] at h
  | cons e tl ih =>
    intro k window st w' c hall h
    rcases hds : decodeStep st e with ⟨st', r⟩
    rw [runLoop, hds] at h
    cases r with
    | abort => simp at h
    | pending => exact ih k window st' w' c hall h
    | discarded => exact ih k window st' w' c hall h
    | completed v =>
      simp only at h
      split at h
      · obtain ⟨rfl, -⟩ : window = w' ∧ 1 = c := by
          simpa using h
        exact hall
      · rename_i h1
        split at h
        · split at h
          · exact ih (k + 1) window PendingSample.empty w' c hall h
          · obtain ⟨rfl, -⟩ : window = w' ∧ 1 = c := by
              simpa using h
            exact hall
        · rename_i h2
          have hv : t ≤ v := by
            rcases Nat.eq_zero_or_pos window.length with hz | hp
            · by_contra hvt
              exact h2 ⟨hz, lt_of_not_le hvt⟩
            · by_contra hvt
              exact h1 ⟨Nat.pos_iff_ne_zero.mp hp, lt_of_not_le hvt⟩
          have hall' : ∀ x ∈ window ++ [v], t ≤ x := by
            intro x hx
            rcases List.mem_append.mp hx with hx | hx
            · exact hall x hx
            · rw [List.mem_singleton.mp hx]; exact hv
          split at h
          · obtain ⟨rfl, -⟩ : window ++ [v] = w' ∧ 1 = c := by
              simpa using h
            exact hall'
          · split at h
            · exact ih (k + 1) (window ++ [v]) PendingSample.empty w' c hall' h
            · obtain ⟨rfl, -⟩ : window ++ [v] = w' ∧ 1 = c := by
                simpa using h
              exact hall'

/-- Every run of the loop ends in exactly one of three ways: a normal return
with exactly one executed `device.close()`, the button-press exit with none,
or blocked forever (no close yet). -/
theorem runLoop_close_trichotomy (m : ℕ → Bool) (samples : ℕ) (t : ℚ) :
    ∀ (evs : List BoardEvent) (k : ℕ) (window : List ℚ) (st : PendingSample),
      (∃ w', runLoop m samples t k window st evs = (.ok w', 1))
      ∨ runLoop m samples t k window st evs = (.exit, 0)
      ∨ runLoop m samples t k window st evs = (.blocked, 0) := by
  intro evs
  induction evs with
  | nil => intro k window st; right; right; simp [runLoop]
  | cons e tl ih =>
    intro k window st
    rcases hds : decodeStep st e with ⟨st', r⟩
    rw [runLoop, hds]
    cases r with
    | abort => right; left; rfl
    | pending => exact ih k window st'
    | discarded => exact ih k window st'
    | completed v =>
      simp only
      split
      · exact Or.inl ⟨window, rfl⟩
      · split
        · split
          · exact ih (k + 1) window PendingSample.empty
          · exact Or.inl ⟨window, rfl⟩
        · split
          · exact Or.inl ⟨window ++ [v], rfl⟩
          · split
            · exact ih (k + 1) (window ++ [v]) PendingSample.empty
            · exact Or.inl ⟨window ++ [v], rfl⟩

/-- Once the window is non-empty its first entry never changes: the loop
only appends. -/
theorem runLoop_head_stable (m : ℕ → Bool) (samples : ℕ) (t : ℚ) :
    ∀ (evs : List BoardEvent) (k : ℕ) (window : List ℚ) (st : PendingSample)
      (w' : List ℚ) (c : ℕ),
      window ≠ [] →
      runLoop m samples t k window st evs = (.ok w', c) → w'.head? = window.head? := by
  intro evs
  induction evs with
  | nil => intro k window st w' c _ h; simp [runLoop] at h
  | cons e tl ih =>
    intro k window st w' c hne h
    rcases hds : decodeStep st e with ⟨st', r⟩
    rw [runLoop, hds] at h
    cases r with
    | abort => simp at h
    | pending => exact ih k window st' w' c hne h
    | discarded => exact ih k window st' w' c hne h
    | completed v =>
      simp only at h
      have hhead : (window ++ [v]).head? = window.head? := by
        rcases window with - | ⟨x, xs⟩
        · exact absurd rfl hne
        · rfl
      split at h
      · obtain ⟨rfl, -⟩ : window = w' ∧ 1 = c := by
          simpa using h
        rfl
      · split at h
        · rename_i h2
          exact absurd (List.length_eq_zero.mp h2.1) hne
        · split at h
          · obtain ⟨rfl, -⟩ : window ++ [v] = w' ∧ 1 = c := by
              simpa using h
            exact hhead
          · split at h
            · rw [ih (k + 1) (window ++ [v]) PendingSample.empty w' c
                (by simp) h]
              exact hhead
            · obtain ⟨rfl, -⟩ : window ++ [v] = w' ∧ 1 = c := by
                simpa using h
              exact hhead

/-- Before any sample is accepted the loop and the sample stream advance in
lock step: if a run started with an empty window returns a non-empty window,
its first entry is the first decodable sample at or above the threshold. -/
theorem runLoop_head_first_accepted (m : ℕ → Bool) (samples : ℕ) (t : ℚ) :
    ∀ (evs : List BoardEvent) (k : ℕ) (st : PendingSample) (w' : List ℚ) (c : ℕ),
      runLoop m samples t k [] st evs = (.ok w', c) → w' ≠ [] →
      w'.head? = (decodedSamplesAux st evs).find? (fun v => decide (t ≤ v)) := by
  intro evs
  induction evs with
  | nil => intro k st w' c h _; simp [runLoop] at h
  | cons e tl ih =>
    intro k st w' c h hne
    rcases hds : decodeStep st e with ⟨st', r⟩
    rw [runLoop, hds] at h
    simp only [decodedSamplesAux, hds]
    cases r with
    | abort => simp at h
    | pending => exact ih k st' w' c h hne
    | discarded => exact ih k st' w' c h hne
    | completed v =>
      simp only at h ⊢
      by_cases hv : v < t
      · rw [List.find?_cons_of_neg _ (by simpa using not_le.mpr hv)]
        have h' : (if m (k + 1) = true
            then runLoop m samples t (k + 1) [] PendingSample.empty tl
            else ((.ok [], 1) : ReadResult × ℕ)) = (.ok w', c) := by
          simpa [hv] using h
        split at h'
        · exact ih (k + 1) PendingSample.empty w' c h' hne
        · obtain ⟨rfl, -⟩ : ([] : List ℚ) = w' ∧ 1 = c := by
            simpa using h'
          exact absurd rfl hne
      · rw [List.find?_cons_of_pos _ (by simpa using le_of_not_lt hv)]
        have h' : (if samples ≤ 1 then ((.ok [v], 1) : ReadResult × ℕ)
            else if m (k + 1) = true
              then runLoop m samples t (k + 1) [v] PendingSample.empty tl
              else (.ok [v], 1)) = (.ok w', c) := by
          simpa [hv] using h
        split at h'
        · obtain ⟨rfl, -⟩ : [v] = w' ∧ 1 = c := by
            simpa using h'
          rfl
        · split at h'
          · rw [runLoop_head_stable m samples t tl (k + 1) [v]
              PendingSample.empty w' c (by simp) h']
            rfl
          · obtain ⟨rfl, -⟩ : [v] = w' ∧ 1 = c := by
              simpa using h'
            rfl

/-- C4: while the window is still empty, a decoded sample strictly below the
threshold is discarded without touching the window — the loop just moves on
to the next measurement (first conjunct); and whenever a run of `read_data`
returns a non-empty window, its first entry is the first decoded sample at
or above the threshold (second conjunct). -/
theorem empty_window_gate :
    (∀ (m : ℕ → Bool) (samples : ℕ) (t : ℚ) (k : ℕ) (st : PendingSample)
      (evs rest : List BoardEvent) (v : ℚ),
      getRawMeasurementAux st evs = .completed v rest → v < t →
      m (k + 1) = true →
      runLoop m samples t k [] st evs =
        runLoop m samples t (k + 1) [] PendingSample.empty rest)
    ∧ (∀ (m : ℕ → Bool) (samples : ℕ) (t : ℚ) (evs : List BoardEvent)
      (w' : List ℚ) (c : ℕ),
      read_data m samples t evs = (.ok w', c) → w' ≠ [] →
      w'.head? = (decodedSamples evs).find? (fun v => decide (t ≤ v))) := by
  constructor
  · intro m samples t k st evs rest v hdec hv hm
    rw [runLoop_of_completed m samples t evs st k [] v rest hdec]
    simp [handleSample, hv, hm]
  · intro m samples t evs w' c h hne
    rw [read_data] at h
    split at h
    · exact runLoop_head_first_accepted m samples t evs 0 PendingSample.empty
        w' c h hne
    · obtain ⟨rfl, -⟩ : ([] : List ℚ) = w' ∧ 1 = c := by
        simpa using h
      exact absurd rfl hne

/-- Witness for C4: an 18 kg sample with an empty window is skipped (the run
continues unchanged on the rest of the stream), and in the stream
18 kg, 84 kg, 18 kg the returned window starts — and ends — with the 84 kg
sample, the first one at or above the 20 kg threshold. -/
theorem empty_window_gate_witness :
    runLoop alwaysOn 200 20 0 [] PendingSample.empty (group18 ++ group84 ++ group18) =
      runLoop alwaysOn 200 20 1 [] PendingSample.empty (group84 ++ group18)
    ∧ ([(84 : ℚ)].head? =
        (decodedSamples (group18 ++ group84 ++ group18)).find?
          (fun v => decide ((20 : ℚ) ≤ v))) :=
  ⟨empty_window_gate.1 alwaysOn 200 20 0 PendingSample.empty
      (group18 ++ group84 ++ group18) (group84 ++ group18) 18
      (by with_unfolding_all decide) (by with_unfolding_all decide) rfl,
    empty_window_gate.2 alwaysOn 200 20 (group18 ++ group84 ++ group18) [84] 1
      (by with_unfolding_all decide) (by with_unfolding_all decide)⟩

/-- C9 (amended: a positive cap): for every event stream, cancellation
pattern and configuration with `maxSamples ≥ 1`, the returned window never
holds more than `maxSamples` entries — the loop breaks as soon as the window
reaches the cap, before evaluating any further input. -/
theorem window_bounded_by_cap (m : ℕ → Bool) (samples : ℕ) (t : ℚ)
    (evs : List BoardEvent) (w' : List ℚ) (c : ℕ) (hs : 1 ≤ samples)
    (h : read_data m samples t evs = (.ok w', c)) : w'.length ≤ samples := by
  rw [read_data] at h
  split at h
  · exact runLoop_length_le m samples t evs 0 [] PendingSample.empty w' c hs h
  · obtain ⟨rfl, -⟩ : ([] : List ℚ) = w' ∧ 1 = c := by
      simpa using h
    simp

/-- Witness for C9: with a cap of 2 and three full groups available, the run
stops at exactly 2 samples. -/
theorem window_bounded_by_cap_witness :
    read_data alwaysOn 2 20 (group84 ++ group84 ++ group84) =
      (.ok [(84 : ℚ), 84], 1)
    ∧ ([(84 : ℚ), 84]).length ≤ 2 :=
  ⟨by with_unfolding_all decide,
    window_bounded_by_cap alwaysOn 2 20 (group84 ++ group84 ++ group84)
      [84, 84] 1 (by decide) (by with_unfolding_all decide)⟩

/-- Counterexample to C9 as stated (for every configuration): with
`maxSamples = 0` the loop still appends the first accepted sample before
testing the cap, returning a window of 1 > 0 entries. -/
theorem window_exceeds_zero_cap :
    read_data alwaysOn 0 20 group84 = (.ok [(84 : ℚ)], 1) := by
  with_unfolding_all decide

/-- C10: every entry of the window a `read_data` run hands to the
aggregation is at or above the configured threshold: sub-threshold samples
are either skipped (empty window) or end collection (non-empty window), and
are never appended. -/
theorem window_entries_ge_threshold (m : ℕ → Bool) (samples : ℕ) (t : ℚ)
    (evs : List BoardEvent) (w' : List ℚ) (c : ℕ)
    (h : read_data m samples t evs = (.ok w', c)) : ∀ x ∈ w', t ≤ x := by
  rw [read_data] at h
  split at h
  · exact runLoop_mem_ge_threshold m samples t evs 0 [] PendingSample.empty
      w' c (by simp) h
  · obtain ⟨rfl, -⟩ : ([] : List ℚ) = w' ∧ 1 = c := by
      simpa using h
    simp

/-- Witness for C10: the stream 18 kg, 84 kg, 18 kg yields the window
`[84]`, and its only entry is at or above the 20 kg threshold. -/
theorem window_entries_ge_threshold_witness :
    read_data alwaysOn 200 20 (group18 ++ group84 ++ group18) =
      (.ok [(84 : ℚ)], 1)
    ∧ (20 : ℚ) ≤ 84 :=
  ⟨by with_unfolding_all decide,
    window_entries_ge_threshold alwaysOn 200 20 (group18 ++ group84 ++ group18)
      [84] 1 (by with_unfolding_all decide) 84 (by with_unfolding_all decide)⟩

/-- C7 (amended): the device handle is closed exactly once on every terminal
path on which `read_data` returns normally — completion by cap, step-off, or
cancellation; but on a user abort the `sys.exit` propagates before the
close (close count 0), and a read that never returns closes nothing. -/
theorem device_close_discipline (m : ℕ → Bool) (samples : ℕ) (t : ℚ)
    (evs : List BoardEvent) :
    (∃ w', read_data m samples t evs = (.ok w', 1))
    ∨ read_data m samples t evs = (.exit, 0)
    ∨ read_data m samples t evs = (.blocked, 0) := by
  rw [read_data]
  split
  · exact runLoop_close_trichotomy m samples t evs 0 [] PendingSample.empty
  · exact Or.inl ⟨[], rfl⟩

/-- Counterexample to C7 as stated: on the user-abort terminal path the
device handle is not closed at all — the close count is 0, not 1. -/
theorem close_skipped_on_abort :
    read_data alwaysOn 200 20 (group84 ++ [.buttonPress]) = (.exit, 0) := by
  with_unfolding_all decide

/-- C8 (amended): a requested disconnect address that does not match
`([0-9a-f]{2}:){5}[0-9a-f]{2}` case-insensitively is rejected before the
measurement session starts — `measure_weight` terminates with an error
without reading any sample, so the invalid address never reaches the
disconnect command; no session is run at all (rather than the session
completing with the hook skipped). -/
theorem invalid_address_rejected_before_session (adjust minlimit : ℚ)
    (addr : String) (m : ℕ → Bool) (evs : List BoardEvent)
    (h1 : addr.isEmpty = false) (h2 : isValidMac addr = false) :
    measure_weight adjust minlimit addr m evs = .invalidAddress := by
  rw [measure_weight]
  simp [h1, h2]

/-- Witness for C8 (amended): the spec's `"not-a-mac"` address is rejected
up front, whatever events the board would have produced. -/
theorem invalid_address_rejected_before_session_witness :
    measure_weight 0 20 "not-a-mac" alwaysOn (group84 ++ group18) =
      .invalidAddress :=
  invalid_address_rejected_before_session 0 20 "not-a-mac" alwaysOn
    (group84 ++ group18) (by with_unfolding_all decide)
    (by with_unfolding_all decide)

/-- The source aggregation (`statistics.median`) and the spec's median
description coincide: sort, middle element on an odd count, mean of the two
middle elements on an even count, undefined on an empty window. -/
theorem pymedian_eq_specMedian (w : List ℚ) : pymedian w = specMedian w := by
  simp only [pymedian, specMedian]
  set s := List.insertionSort (fun a b => a ≤ b) w with hs
  rcases Nat.eq_zero_or_pos s.length with h0 | hpos
  · have hnil : s = [] := List.length_eq_zero.mp h0
    rw [hnil]
    rfl
  · have hne : s.length ≠ 0 := Nat.pos_iff_ne_zero.mp hpos
    have hlt2 : s.length / 2 < s.length := Nat.div_lt_self hpos one_lt_two
    by_cases hodd : s.length % 2 = 1
    · rw [if_pos hodd, if_neg hne, if_pos hodd]
      rw [List.get?_eq_get hlt2]
      simp [List.getD_eq_getElem?_getD, List.getElem?_eq_getElem hlt2,
        List.get_eq_getElem]
    · have h2 : 2 ≤ s.length := by omega
      have h1lt : s.length / 2 - 1 < s.length := by omega
      rw [if_neg hodd, if_neg hne, if_neg hodd]
      rw [List.get?_eq_get hlt2, List.get?_eq_get h1lt]
      simp [List.getD_eq_getElem?_getD, List.getElem?_eq_getElem hlt2,
        List.getElem?_eq_getElem h1lt, List.get_eq_getElem]

/-- The spec median is defined on every non-empty window. -/
theorem specMedian_ne_none (w : List ℚ) (hne : w ≠ []) : specMedian w ≠ none := by
  simp only [specMedian]
  have hlen : (List.insertionSort (fun a b => a ≤ b) w).length = w.length :=
    (List.perm_insertionSort _ w).length_eq
  have h0 : (List.insertionSort (fun a b => a ≤ b) w).length ≠ 0 := by
    rw [hlen]
    exact Nat.pos_iff_ne_zero.mp (List.length_pos.mpr hne)
  rw [if_neg h0]
  split <;> simp

/-- C2: the aggregation step of `measure_weight` fails on every empty sample
window (`statistics.median` raises `StatisticsError`, modelled as `none`),
and on every non-empty window it returns exactly median(window) + adjust,
where the median is the middle element of the sorted window for an odd
count and the arithmetic mean of the two middle elements for an even count;
no rounding or clamping is applied. -/
theorem aggregate_is_median_plus_adjust (w : List ℚ) (adjust : ℚ) :
    (w = [] → finalWeight w adjust = none)
    ∧ (w ≠ [] → specMedian w ≠ none
        ∧ finalWeight w adjust = (specMedian w).map (fun x => x + adjust)) := by
  constructor
  · rintro rfl
    rfl
  · intro hne
    refine ⟨specMedian_ne_none w hne, ?_⟩
    rw [finalWeight, pymedian_eq_specMedian]

/-- Witness for C2: an even-length window — the sorted middle pair is
85 and 86, the median 171/2, and with an adjustment of 1/2 the exact result
is 86. -/
theorem aggregate_is_median_plus_adjust_witness :
    specMedian [(85 : ℚ), 84, 86, 100] ≠ none
    ∧ finalWeight [(85 : ℚ), 84, 86, 100] (1 / 2) =
      (specMedian [(85 : ℚ), 84, 86, 100]).map (fun x => x + 1 / 2)
    ∧ finalWeight [(85 : ℚ), 84, 86, 100] (1 / 2) = some 86 :=
  ⟨((aggregate_is_median_plus_adjust [(85 : ℚ), 84, 86, 100] (1 / 2)).2
      (by with_unfolding_all decide)).1,
    ((aggregate_is_median_plus_adjust [(85 : ℚ), 84, 86, 100] (1 / 2)).2
      (by with_unfolding_all decide)).2,
    by with_unfolding_all decide⟩

/-- Counterexample to C8 as stated: `"not-a-mac"` fails the pattern, and the
session does not then proceed to completion with the hook skipped — the run
is terminated up front (`invalidAddress`), even though the very same event
stream produces a completed 84 kg measurement when no disconnect is
requested. -/
theorem invalid_address_aborts_run :
    isValidMac "not-a-mac" = false
    ∧ measure_weight 0 20 "not-a-mac" alwaysOn (group84 ++ group18) =
      .invalidAddress
    ∧ measure_weight 0 20 "" alwaysOn (group84 ++ group18) = .done 84 false := by
  refine ⟨by with_unfolding_all decide, by with_unfolding_all decide,
    by with_unfolding_all decide⟩

end Weii
